import Mathlib

/-!
# Verification of the warikan (bill-splitting) settlement core

This development embeds the computational core of `src/app.py`:

* `simplify_debts` (source lines 7–57): the greedy debt-simplification loop,
* the balance-accumulation loop inside `main` (source lines 129–175),
* the empty-result check and result reporting inside `main` (lines 177–195).

Modelling conventions:

* Python `float` amounts are modelled as exact rationals (`ℚ`); the literals
  `0.01` and `-0.01` of the source become `1/100` and `-(1/100)`.
* Python dicts are modelled as association lists in iteration (insertion)
  order; `dict.items()` is the list itself, a dict comprehension with a
  filter is `List.filter`, and Python's stable `sorted` is
  `List.insertionSort` (both are stable sorts, hence pointwise equal).
* Python `round(x, 2)` (round-half-to-even on 2 decimal places) is modelled
  by `round2` below, using banker's rounding on `100 * x`.
* The emitted transaction strings
  `f"**{debtor_name}** さんは **{creditor_name}** さんに **{payment:,.0f}円** 支払う"`
  are modelled as `Txn` records carrying the two names and the exact
  `payment` value; the `:,.0f` display formatting is presentation only and
  is not part of the record.
-/

namespace Warikan

/-- One emitted transaction of `simplify_debts`: the source appends a string
naming `debtor_name`, `creditor_name` and `payment`; we keep the three
components. -/
structure Txn where
  debtor_name : String
  creditor_name : String
  payment : ℚ
deriving DecidableEq, Repr

/-- The full state of the `while` loop of `simplify_debts` when it exits:
the accumulated `transactions` list, the two working lists
`sorted_debtors` / `sorted_creditors`, and the two cursors `d_idx` / `c_idx`. -/
structure LoopResult where
  txns : List Txn
  sd : List (String × ℚ)
  sc : List (String × ℚ)
  d : ℕ
  c : ℕ
deriving DecidableEq, Repr

/-- `creditors = {person: amount for person, amount in balances.items() if amount > 0}`
(source line 13), keeping dict iteration order. -/
def creditorsOf (balances : List (String × ℚ)) : List (String × ℚ) :=
  balances.filter (fun x => 0 < x.2)

/-- `debtors = {person: amount for person, amount in balances.items() if amount < 0}`
(source line 14). -/
def debtorsOf (balances : List (String × ℚ)) : List (String × ℚ) :=
  balances.filter (fun x => x.2 < 0)

/-- The comparison used to sort debtors: ascending by balance value
(`sorted(debtors.items(), key=lambda item: item[1])`, source line 20). -/
def leD (a b : String × ℚ) : Prop := a.2 ≤ b.2

/-- The comparison used to sort creditors: descending by balance value
(`sorted(creditors.items(), key=lambda item: item[1], reverse=True)`,
source line 21). -/
def leC (a b : String × ℚ) : Prop := b.2 ≤ a.2

instance : DecidableRel leD := fun a b => inferInstanceAs (Decidable (a.2 ≤ b.2))
instance : DecidableRel leC := fun a b => inferInstanceAs (Decidable (b.2 ≤ a.2))

instance : IsTotal (String × ℚ) leD := ⟨fun a b => le_total a.2 b.2⟩
instance : IsTrans (String × ℚ) leD := ⟨fun _ _ _ h1 h2 => le_trans h1 h2⟩
instance : IsTotal (String × ℚ) leC := ⟨fun a b => le_total b.2 a.2⟩
instance : IsTrans (String × ℚ) leC := ⟨fun _ _ _ h1 h2 => le_trans h2 h1⟩

/-- `sorted_debtors` of source line 20 (stable sort, ascending value). -/
def sortedDebtors (balances : List (String × ℚ)) : List (String × ℚ) :=
  List.insertionSort leD (debtorsOf balances)

/-- `sorted_creditors` of source line 21 (stable sort, descending value). -/
def sortedCreditors (balances : List (String × ℚ)) : List (String × ℚ) :=
  List.insertionSort leC (creditorsOf balances)

/-- The `while d_idx < len(sorted_debtors) and c_idx < len(sorted_creditors)`
loop of `simplify_debts` (source lines 27–55), returning the final loop
state.  Each iteration reads the entries at the two cursors, computes
`payment = min(-debtor_amount, creditor_amount)`; if `payment < 0.01` only
the debtor cursor advances (`continue`), otherwise the transaction is
emitted, both working lists are updated in place, and each cursor advances
when its updated balance crosses its threshold. -/
def simplifyGo (sd sc : List (String × ℚ)) (d c : ℕ) : LoopResult :=
  if h : d < sd.length ∧ c < sc.length then
    if min (-(sd.get ⟨d, h.1⟩).2) (sc.get ⟨c, h.2⟩).2 < 1/100 then
      simplifyGo sd sc (d + 1) c
    else
      let r := simplifyGo
        (sd.set d ((sd.get ⟨d, h.1⟩).1,
          (sd.get ⟨d, h.1⟩).2 + min (-(sd.get ⟨d, h.1⟩).2) (sc.get ⟨c, h.2⟩).2))
        (sc.set c ((sc.get ⟨c, h.2⟩).1,
          (sc.get ⟨c, h.2⟩).2 - min (-(sd.get ⟨d, h.1⟩).2) (sc.get ⟨c, h.2⟩).2))
        (if -(1/100) < (sd.get ⟨d, h.1⟩).2 + min (-(sd.get ⟨d, h.1⟩).2) (sc.get ⟨c, h.2⟩).2
          then d + 1 else d)
        (if (sc.get ⟨c, h.2⟩).2 - min (-(sd.get ⟨d, h.1⟩).2) (sc.get ⟨c, h.2⟩).2 < 1/100
          then c + 1 else c)
      ⟨⟨(sd.get ⟨d, h.1⟩).1, (sc.get ⟨c, h.2⟩).1,
        min (-(sd.get ⟨d, h.1⟩).2) (sc.get ⟨c, h.2⟩).2⟩ :: r.txns, r.sd, r.sc, r.d, r.c⟩
  else ⟨[], sd, sc, d, c⟩
termination_by sd.length - d + (sc.length - c)
decreasing_by
  · omega
  · have hAB : (-(1/100 : ℚ) < (sd.get ⟨d, h.1⟩).2
        + min (-(sd.get ⟨d, h.1⟩).2) ((sc.get ⟨c, h.2⟩).2))
      ∨ ((sc.get ⟨c, h.2⟩).2
        - min (-(sd.get ⟨d, h.1⟩).2) ((sc.get ⟨c, h.2⟩).2) < 1/100) := by
      rcases le_total (-(sd.get ⟨d, h.1⟩).2) ((sc.get ⟨c, h.2⟩).2) with hm | hm
      · left
        rw [min_eq_left hm]
        have h0 : (sd.get ⟨d, h.1⟩).2 + -(sd.get ⟨d, h.1⟩).2 = 0 := by ring
        rw [h0]
        norm_num
      · right
        rw [min_eq_right hm]
        have h0 : (sc.get ⟨c, h.2⟩).2 - (sc.get ⟨c, h.2⟩).2 = 0 := by ring
        rw [h0]
        norm_num
    simp only [List.length_set]
    split_ifs with hA hB hB
    · omega
    · omega
    · omega
    · rcases hAB with hA2 | hB2
      · exact absurd hA2 hA
      · exact absurd hB2 hB

/-- `simplify_debts` (source lines 7–57): partition, sort, run the loop,
return the transaction list. -/
def simplify_debts (balances : List (String × ℚ)) : List Txn :=
  (simplifyGo (sortedDebtors balances) (sortedCreditors balances) 0 0).txns

/-- Fuel-bounded variant of the `simplify_debts` loop: identical body, but
each iteration consumes one unit of fuel and running out of fuel while the
loop guard still holds yields `none`.  `simplifyGoF n sd sc d c = some r`
therefore certifies that the loop starting from `(sd, sc, d, c)` finishes
within `n` iterations with final state `r`. -/
def simplifyGoF : ℕ → List (String × ℚ) → List (String × ℚ) → ℕ → ℕ → Option LoopResult
  | fuel, sd, sc, d, c =>
    if h : d < sd.length ∧ c < sc.length then
      match fuel with
      | 0 => none
      | fuel + 1 =>
        if min (-(sd.get ⟨d, h.1⟩).2) (sc.get ⟨c, h.2⟩).2 < 1/100 then
          simplifyGoF fuel sd sc (d + 1) c
        else
          let p := min (-(sd.get ⟨d, h.1⟩).2) (sc.get ⟨c, h.2⟩).2
          match simplifyGoF fuel
            (sd.set d ((sd.get ⟨d, h.1⟩).1, (sd.get ⟨d, h.1⟩).2 + p))
            (sc.set c ((sc.get ⟨c, h.2⟩).1, (sc.get ⟨c, h.2⟩).2 - p))
            (if -(1/100) < (sd.get ⟨d, h.1⟩).2 + p then d + 1 else d)
            (if (sc.get ⟨c, h.2⟩).2 - p < 1/100 then c + 1 else c) with
          | none => none
          | some r =>
            some ⟨⟨(sd.get ⟨d, h.1⟩).1, (sc.get ⟨c, h.2⟩).1, p⟩ :: r.txns, r.sd, r.sc, r.d, r.c⟩
    else some ⟨[], sd, sc, d, c⟩

/-! ## The balance accumulator (source lines 129–175)

One row of the Notion table is modelled as an `Entry`.  The source first
skips rows missing one of the three required properties (lines 138–139),
then reads `amount = props["金額"].get("number")` (so a present property
with no number yields `None`), `payers` and `sharers`.  A missing property
and a present-but-empty one behave identically (the row is skipped), so the
embedding models both as `amount = none` / an empty list. -/
structure Entry where
  amount : Option ℚ
  payers : List String
  sharers : List String
deriving DecidableEq, Repr

/-- The validation test of source line 146:
`if amount is None or amount == 0 or not payers or not sharers: continue`.
An entry is processed exactly when this returns `true`.  Note the source
tests `amount == 0`, not `amount <= 0`. -/
def validEntry (e : Entry) : Bool :=
  match e.amount with
  | none => false
  | some a => decide (a ≠ 0) && decide (e.payers ≠ []) && decide (e.sharers ≠ [])

/-- Round half to even ("banker's rounding"), the behaviour of Python's
built-in `round` on ties; non-tie values go to the nearest integer. -/
def roundHalfEven (q : ℚ) : ℤ :=
  if Int.fract q < 1/2 then ⌊q⌋
  else if 1/2 < Int.fract q then ⌊q⌋ + 1
  else if ⌊q⌋ % 2 = 0 then ⌊q⌋ else ⌊q⌋ + 1

/-- `round(x, 2)` of source line 157, on exact rationals. -/
def round2 (q : ℚ) : ℚ := (roundHalfEven (q * 100) : ℚ) / 100

/-- `balances[name] += delta` on a `defaultdict(float)` kept in insertion
order: add to the first binding of `name`, or append `(name, delta)`. -/
def addTo (bs : List (String × ℚ)) (name : String) (delta : ℚ) : List (String × ℚ) :=
  match bs with
  | [] => [(name, delta)]
  | (q, v) :: rest =>
    if q = name then (q, v + delta) :: rest else (q, v) :: addTo rest name delta

/-- Processing of a single row inside the `for item in data` loop
(source lines 133–172): invalid rows are skipped (`continue`), otherwise
`payer_name = payers[0]["name"]` receives the full amount and every
beneficiary is debited `per_person_amount = round(amount / share_count, 2)`. -/
def applyEntry (bs : List (String × ℚ)) (e : Entry) : List (String × ℚ) :=
  match e.amount with
  | none => bs
  | some amount =>
    match e.payers with
    | [] => bs
    | payer_name :: _ =>
      if amount = 0 ∨ e.sharers = [] then bs
      else
        let per_person_amount := round2 (amount / (e.sharers.length : ℚ))
        let bs1 := addTo bs payer_name amount
        e.sharers.foldl (fun b name => addTo b name (-per_person_amount)) bs1

/-- The whole accumulation loop: `balances` after the `for item in data`
loop, starting from the empty `defaultdict(float)`. -/
def accumulate (entries : List Entry) : List (String × ℚ) :=
  entries.foldl applyEntry []

/-- The outcome of the computation triggered by the button (source lines
177–195): either the distinct empty-data error
(`st.error("計算対象のデータが見つかりませんでした...")` followed by `return`,
taken when `not balances`, so `simplify_debts` is never invoked), or the
success path carrying the computed transaction list (an empty list is shown
as "全員の精算は完了しています！", still on the success path). -/
inductive ComputeResult where
  | noData
  | done (txns : List Txn)
deriving DecidableEq, Repr

/-- The computation `main` performs on the decoded rows: accumulate, test
`if not balances`, otherwise simplify. -/
def mainCompute (entries : List Entry) : ComputeResult :=
  let balances := accumulate entries
  if balances = [] then ComputeResult.noData
  else ComputeResult.done (simplify_debts balances)

/-! ## Derived notions used to state the claims -/

/-- The value read for `p` in an association-list balance map (0 for unseen
identities, matching `defaultdict(float)`). -/
def lookup0 (bs : List (String × ℚ)) (p : String) : ℚ :=
  match bs with
  | [] => 0
  | (q, v) :: rest => if q = p then v else lookup0 rest p

/-- Sum of all balances in a map (`sum(balances.values())`). -/
def vsum (bs : List (String × ℚ)) : ℚ := (bs.map Prod.snd).sum

/-- Total amount `p` pays across a transaction list. -/
def paidBy (ts : List Txn) (p : String) : ℚ :=
  (ts.map (fun t => if t.debtor_name = p then t.payment else 0)).sum

/-- Total amount `p` receives across a transaction list. -/
def recvBy (ts : List Txn) (p : String) : ℚ :=
  (ts.map (fun t => if t.creditor_name = p then t.payment else 0)).sum

/-- The balance of `p` after applying every transaction to the original
balance map.  Applying a payment moves money from the debtor to the
creditor, i.e. it increases the (negative) balance of the payer and
decreases the (positive) balance of the recipient — exactly the update
`debtor_amount + payment` / `creditor_amount - payment` of source lines
43–44, which drives both toward 0. -/
def balanceAfter (bs : List (String × ℚ)) (ts : List Txn) (p : String) : ℚ :=
  lookup0 bs p + paidBy ts p - recvBy ts p

/-- Number of entries of the map holding a non-zero balance. -/
def countNonzero (bs : List (String × ℚ)) : ℕ :=
  (bs.filter (fun x => decide (x.2 ≠ 0))).length

/-! ## Unfolding lemmas for the `simplify_debts` loop -/

theorem simplifyGo_stop (sd sc : List (String × ℚ)) (d c : ℕ)
    (h : ¬(d < sd.length ∧ c < sc.length)) :
    simplifyGo sd sc d c = ⟨[], sd, sc, d, c⟩ := by
  unfold simplifyGo
  rw [dif_neg h]

theorem simplifyGo_skip (sd sc : List (String × ℚ)) (d c : ℕ)
    (h1 : d < sd.length) (h2 : c < sc.length)
    (hp : min (-(sd.get ⟨d, h1⟩).2) (sc.get ⟨c, h2⟩).2 < 1/100) :
    simplifyGo sd sc d c = simplifyGo sd sc (d + 1) c := by
  conv_lhs => rw [simplifyGo]
  rw [dif_pos ⟨h1, h2⟩]
  rw [if_pos hp]

theorem simplifyGo_emit (sd sc : List (String × ℚ)) (d c : ℕ)
    (h1 : d < sd.length) (h2 : c < sc.length)
    (hp : ¬ min (-(sd.get ⟨d, h1⟩).2) (sc.get ⟨c, h2⟩).2 < 1/100) :
    simplifyGo sd sc d c =
      { simplifyGo
          (sd.set d ((sd.get ⟨d, h1⟩).1,
            (sd.get ⟨d, h1⟩).2 + min (-(sd.get ⟨d, h1⟩).2) (sc.get ⟨c, h2⟩).2))
          (sc.set c ((sc.get ⟨c, h2⟩).1,
            (sc.get ⟨c, h2⟩).2 - min (-(sd.get ⟨d, h1⟩).2) (sc.get ⟨c, h2⟩).2))
          (if -(1/100) < (sd.get ⟨d, h1⟩).2 + min (-(sd.get ⟨d, h1⟩).2) (sc.get ⟨c, h2⟩).2
            then d + 1 else d)
          (if (sc.get ⟨c, h2⟩).2 - min (-(sd.get ⟨d, h1⟩).2) (sc.get ⟨c, h2⟩).2 < 1/100
            then c + 1 else c) with
        txns := ⟨(sd.get ⟨d, h1⟩).1, (sc.get ⟨c, h2⟩).1,
            min (-(sd.get ⟨d, h1⟩).2) (sc.get ⟨c, h2⟩).2⟩
          :: (simplifyGo
            (sd.set d ((sd.get ⟨d, h1⟩).1,
              (sd.get ⟨d, h1⟩).2 + min (-(sd.get ⟨d, h1⟩).2) (sc.get ⟨c, h2⟩).2))
            (sc.set c ((sc.get ⟨c, h2⟩).1,
              (sc.get ⟨c, h2⟩).2 - min (-(sd.get ⟨d, h1⟩).2) (sc.get ⟨c, h2⟩).2))
            (if -(1/100) < (sd.get ⟨d, h1⟩).2 + min (-(sd.get ⟨d, h1⟩).2) (sc.get ⟨c, h2⟩).2
              then d + 1 else d)
            (if (sc.get ⟨c, h2⟩).2 - min (-(sd.get ⟨d, h1⟩).2) (sc.get ⟨c, h2⟩).2 < 1/100
              then c + 1 else c)).txns } := by
  conv_lhs => rw [simplifyGo]
  rw [dif_pos ⟨h1, h2⟩]
  rw [if_neg hp]

/-! ## Helper lemmas: balance maps -/

theorem vsum_nil : vsum [] = 0 := rfl

theorem vsum_cons (x : String × ℚ) (l : List (String × ℚ)) :
    vsum (x :: l) = x.2 + vsum l := by
  simp [vsum]

theorem lookup0_addTo (bs : List (String × ℚ)) (name : String) (δ : ℚ) (p : String) :
    lookup0 (addTo bs name δ) p = lookup0 bs p + (if name = p then δ else 0) := by
  induction bs with
  | nil =>
    by_cases hq : name = p <;> simp [addTo, lookup0, hq]
  | cons head tail ih =>
    obtain ⟨q, v⟩ := head
    by_cases hq : q = name
    · subst hq
      by_cases hp : q = p <;> simp [addTo, lookup0, hp]
    · by_cases hp : q = p
      · subst hp
        have hq2 : ¬ name = q := fun h => hq h.symm
        simp [addTo, lookup0, hq, hq2, ih]
      · simp [addTo, lookup0, hq, hp, ih]

theorem vsum_addTo (bs : List (String × ℚ)) (name : String) (δ : ℚ) :
    vsum (addTo bs name δ) = vsum bs + δ := by
  induction bs with
  | nil => simp [addTo, vsum]
  | cons head tail ih =>
    obtain ⟨q, v⟩ := head
    by_cases hq : q = name
    · simp [addTo, hq, vsum_cons]
      ring
    · simp [addTo, hq, vsum_cons, ih]
      ring

theorem addTo_ne_nil (bs : List (String × ℚ)) (name : String) (δ : ℚ) :
    addTo bs name δ ≠ [] := by
  cases bs with
  | nil => simp [addTo]
  | cons head tail =>
    obtain ⟨q, v⟩ := head
    by_cases hq : q = name <;> simp [addTo, hq]

theorem lookup0_foldl_addTo (names : List String) (bs : List (String × ℚ))
    (δ : ℚ) (p : String) :
    lookup0 (names.foldl (fun b n => addTo b n δ) bs) p
      = lookup0 bs p + (names.count p : ℚ) * δ := by
  induction names generalizing bs with
  | nil => simp [lookup0]
  | cons n rest ih =>
    rw [List.foldl_cons, ih, lookup0_addTo]
    by_cases hn : n = p
    · subst hn
      rw [List.count_cons_self]
      simp
      ring
    · have hn2 : ¬ p = n := fun h => hn h.symm
      rw [List.count_cons_of_ne hn2]
      simp [hn]

theorem vsum_foldl_addTo (names : List String) (bs : List (String × ℚ)) (δ : ℚ) :
    vsum (names.foldl (fun b n => addTo b n δ) bs)
      = vsum bs + (names.length : ℚ) * δ := by
  induction names generalizing bs with
  | nil => simp
  | cons n rest ih =>
    rw [List.foldl_cons, ih, vsum_addTo]
    simp [List.length_cons]
    ring

theorem foldl_addTo_ne_nil (names : List String) (bs : List (String × ℚ)) (δ : ℚ)
    (h : bs ≠ []) :
    names.foldl (fun b n => addTo b n δ) bs ≠ [] := by
  induction names generalizing bs with
  | nil => simpa
  | cons n rest ih =>
    rw [List.foldl_cons]
    exact ih _ (addTo_ne_nil bs n δ)

/-! ## Helper lemmas: rounding -/

theorem abs_sub_roundHalfEven (q : ℚ) : |q - (roundHalfEven q : ℚ)| ≤ 1/2 := by
  have hfl : q - (⌊q⌋ : ℚ) = Int.fract q := Int.self_sub_floor q
  have h0 : (0 : ℚ) ≤ Int.fract q := Int.fract_nonneg q
  have h1 : Int.fract q < 1 := Int.fract_lt_one q
  unfold roundHalfEven
  split_ifs with hc1 hc2 hc3
  · rw [abs_le]
    constructor <;> linarith
  · push_cast
    rw [abs_le]
    constructor <;> linarith
  · have heq : Int.fract q = 1/2 := le_antisymm (not_lt.mp hc2) (not_lt.mp hc1)
    rw [abs_le]
    constructor <;> linarith
  · have heq : Int.fract q = 1/2 := le_antisymm (not_lt.mp hc2) (not_lt.mp hc1)
    push_cast
    rw [abs_le]
    constructor <;> linarith

theorem abs_sub_round2 (q : ℚ) : |q - round2 q| ≤ 1/200 := by
  have h := abs_sub_roundHalfEven (q * 100)
  unfold round2
  have heq : q - (roundHalfEven (q * 100) : ℚ) / 100
      = (q * 100 - (roundHalfEven (q * 100) : ℚ)) / 100 := by
    ring
  rw [heq, abs_div]
  have h100 : |(100 : ℚ)| = 100 := by norm_num
  rw [h100, div_le_iff₀ (by norm_num : (0:ℚ) < 100)]
  linarith

/-! ## Helper lemmas: entry processing -/

theorem applyEntry_invalid (bs : List (String × ℚ)) (e : Entry)
    (h : validEntry e = false) : applyEntry bs e = bs := by
  obtain ⟨amt, payers, sharers⟩ := e
  cases amt with
  | none => rfl
  | some a =>
    cases payers with
    | nil => rfl
    | cons payer rest =>
      unfold validEntry at h
      simp only [Bool.and_eq_false_iff, decide_eq_false_iff_not, not_not] at h
      have h2 : a = 0 ∨ sharers = [] := by
        rcases h with (h | h) | h
        · exact Or.inl h
        · exact absurd h (by simp)
        · exact Or.inr h
      show (if a = 0 ∨ sharers = [] then bs
        else
          let per_person_amount := round2 (a / (sharers.length : ℚ))
          let bs1 := addTo bs payer a
          sharers.foldl (fun b name => addTo b name (-per_person_amount)) bs1) = bs
      rw [if_pos h2]

theorem applyEntry_valid_eq (bs : List (String × ℚ)) (a : ℚ) (payer : String)
    (rest : List String) (sharers : List String)
    (ha : a ≠ 0) (hsh : sharers ≠ []) :
    applyEntry bs ⟨some a, payer :: rest, sharers⟩
      = sharers.foldl
          (fun b n => addTo b n (-(round2 (a / (sharers.length : ℚ)))))
          (addTo bs payer a) := by
  unfold applyEntry
  simp only
  rw [if_neg]
  push_neg
  exact ⟨ha, hsh⟩

theorem applyEntry_lookup0 (bs : List (String × ℚ)) (a : ℚ) (payer : String)
    (rest : List String) (sharers : List String)
    (ha : a ≠ 0) (hsh : sharers ≠ []) (p : String) :
    lookup0 (applyEntry bs ⟨some a, payer :: rest, sharers⟩) p
      = lookup0 bs p + (if payer = p then a else 0)
        - (sharers.count p : ℚ) * round2 (a / (sharers.length : ℚ)) := by
  rw [applyEntry_valid_eq bs a payer rest sharers ha hsh,
    lookup0_foldl_addTo, lookup0_addTo]
  ring

theorem accumulate_all_invalid (es : List Entry)
    (h : ∀ e ∈ es, validEntry e = false) : accumulate es = [] := by
  unfold accumulate
  induction es with
  | nil => rfl
  | cons e rest ih =>
    rw [List.foldl_cons, applyEntry_invalid [] e (h e (by simp))]
    exact ih fun e' he' => h e' (by simp [he'])

theorem abs_vsum_applyEntry (bs : List (String × ℚ)) (e : Entry) :
    |vsum (applyEntry bs e) - vsum bs| ≤ (1/200) * (e.sharers.length : ℚ) := by
  by_cases hv : validEntry e = true
  · obtain ⟨amt, payers, sharers⟩ := e
    match amt, payers with
    | none, _ => simp [validEntry] at hv
    | some a, [] => simp [validEntry] at hv
    | some a, payer :: rest =>
      unfold validEntry at hv
      simp only [Bool.and_eq_true, decide_eq_true_eq] at hv
      obtain ⟨⟨ha, -⟩, hsh⟩ := hv
      rw [applyEntry_valid_eq bs a payer rest sharers ha hsh,
        vsum_foldl_addTo, vsum_addTo]
      have hk : (0 : ℚ) < (sharers.length : ℚ) := by
        have : sharers.length ≠ 0 := fun h0 => hsh (List.length_eq_zero.mp h0)
        positivity
    -- the net change of the sum is `a - k * round2 (a / k)`
      have hsplit : vsum bs + a + (sharers.length : ℚ)
            * (-(round2 (a / (sharers.length : ℚ)))) - vsum bs
          = (sharers.length : ℚ)
            * (a / (sharers.length : ℚ) - round2 (a / (sharers.length : ℚ))) := by
        field_simp
        ring
      rw [hsplit, abs_mul, abs_of_pos hk]
      calc (sharers.length : ℚ)
            * |a / (sharers.length : ℚ) - round2 (a / (sharers.length : ℚ))|
          ≤ (sharers.length : ℚ) * (1/200) := by
            exact mul_le_mul_of_nonneg_left (abs_sub_round2 _) (le_of_lt hk)
        _ = (1/200) * (sharers.length : ℚ) := by ring
  · rw [applyEntry_invalid bs e (Bool.not_eq_true _ ▸ hv)]
    simp

theorem abs_vsum_foldl (es : List Entry) (bs : List (String × ℚ)) :
    |vsum (es.foldl applyEntry bs) - vsum bs|
      ≤ (1/200) * ((es.map fun e => (e.sharers.length : ℚ)).sum) := by
  induction es generalizing bs with
  | nil => simp
  | cons e rest ih =>
    rw [List.foldl_cons]
    calc |vsum ((rest.foldl applyEntry (applyEntry bs e))) - vsum bs|
        ≤ |vsum (rest.foldl applyEntry (applyEntry bs e)) - vsum (applyEntry bs e)|
          + |vsum (applyEntry bs e) - vsum bs| := abs_sub_le _ _ _
      _ ≤ (1/200) * ((rest.map fun e => (e.sharers.length : ℚ)).sum)
          + (1/200) * (e.sharers.length : ℚ) := by
          exact add_le_add (ih (applyEntry bs e)) (abs_vsum_applyEntry bs e)
      _ = (1/200) * (((e :: rest).map fun e => (e.sharers.length : ℚ)).sum) := by
          simp
          ring

/-! ## Helper lemmas: the simplification loop -/

/-- In an emitted step at least one cursor advances: the payment is the
minimum of the two sides, so it zeroes the debtor or the creditor. -/
theorem emit_advance (da ca : ℚ) :
    (-(1/100) < da + min (-da) ca) ∨ (ca - min (-da) ca < 1/100) := by
  rcases le_total (-da) ca with hm | hm
  · left
    rw [min_eq_left hm]
    have h0 : da + -da = 0 := by ring
    rw [h0]
    norm_num
  · right
    rw [min_eq_right hm]
    have h0 : ca - ca = 0 := by ring
    rw [h0]
    norm_num

theorem simplifyGoF_stop (n : ℕ) (sd sc : List (String × ℚ)) (d c : ℕ)
    (h : ¬(d < sd.length ∧ c < sc.length)) :
    simplifyGoF n sd sc d c = some ⟨[], sd, sc, d, c⟩ := by
  unfold simplifyGoF
  rw [dif_neg h]

theorem simplifyGoF_skip (n : ℕ) (sd sc : List (String × ℚ)) (d c : ℕ)
    (h1 : d < sd.length) (h2 : c < sc.length)
    (hp : min (-(sd.get ⟨d, h1⟩).2) (sc.get ⟨c, h2⟩).2 < 1/100) :
    simplifyGoF (n + 1) sd sc d c = simplifyGoF n sd sc (d + 1) c := by
  conv_lhs => rw [simplifyGoF]
  rw [dif_pos ⟨h1, h2⟩]
  exact if_pos hp

theorem simplifyGoF_emit (n : ℕ) (sd sc : List (String × ℚ)) (d c : ℕ)
    (h1 : d < sd.length) (h2 : c < sc.length)
    (hp : ¬ min (-(sd.get ⟨d, h1⟩).2) (sc.get ⟨c, h2⟩).2 < 1/100) :
    simplifyGoF (n + 1) sd sc d c
      = match simplifyGoF n
          (sd.set d ((sd.get ⟨d, h1⟩).1,
            (sd.get ⟨d, h1⟩).2 + min (-(sd.get ⟨d, h1⟩).2) (sc.get ⟨c, h2⟩).2))
          (sc.set c ((sc.get ⟨c, h2⟩).1,
            (sc.get ⟨c, h2⟩).2 - min (-(sd.get ⟨d, h1⟩).2) (sc.get ⟨c, h2⟩).2))
          (if -(1/100) < (sd.get ⟨d, h1⟩).2 + min (-(sd.get ⟨d, h1⟩).2) (sc.get ⟨c, h2⟩).2
            then d + 1 else d)
          (if (sc.get ⟨c, h2⟩).2 - min (-(sd.get ⟨d, h1⟩).2) (sc.get ⟨c, h2⟩).2 < 1/100
            then c + 1 else c) with
        | none => none
        | some r => some ⟨⟨(sd.get ⟨d, h1⟩).1, (sc.get ⟨c, h2⟩).1,
            min (-(sd.get ⟨d, h1⟩).2) (sc.get ⟨c, h2⟩).2⟩ :: r.txns,
            r.sd, r.sc, r.d, r.c⟩ := by
  conv_lhs => rw [simplifyGoF]
  rw [dif_pos ⟨h1, h2⟩]
  exact if_neg hp

/-- The fuel version agrees with the loop whenever the fuel covers the
remaining cursor distance; in particular the loop performs at most
`|sorted_debtors| + |sorted_creditors|` iterations. -/
theorem simplifyGoF_spec : ∀ (n : ℕ) (sd sc : List (String × ℚ)) (d c : ℕ),
    sd.length - d + (sc.length - c) ≤ n →
    simplifyGoF n sd sc d c = some (simplifyGo sd sc d c) := by
  intro n
  induction n with
  | zero =>
    intro sd sc d c hn
    have h : ¬(d < sd.length ∧ c < sc.length) := by omega
    rw [simplifyGoF_stop 0 sd sc d c h, simplifyGo_stop sd sc d c h]
  | succ n ih =>
    intro sd sc d c hn
    by_cases h : d < sd.length ∧ c < sc.length
    · by_cases hp : min (-(sd.get ⟨d, h.1⟩).2) (sc.get ⟨c, h.2⟩).2 < 1/100
      · rw [simplifyGoF_skip n sd sc d c h.1 h.2 hp,
          simplifyGo_skip sd sc d c h.1 h.2 hp]
        exact ih sd sc (d + 1) c (by omega)
      · rw [simplifyGoF_emit n sd sc d c h.1 h.2 hp,
          simplifyGo_emit sd sc d c h.1 h.2 hp]
        rw [ih _ _ _ _ ?_]
        · rcases emit_advance (sd.get ⟨d, h.1⟩).2 (sc.get ⟨c, h.2⟩).2 with hA | hB
          · rw [if_pos hA]
            simp only [List.length_set]
            split_ifs <;> omega
          · rw [if_pos hB]
            simp only [List.length_set]
            split_ifs <;> omega
    · rw [simplifyGoF_stop (n + 1) sd sc d c h, simplifyGo_stop sd sc d c h]

theorem simplify_debts_eval (bs : List (String × ℚ)) (ts : List Txn)
    (h : (simplifyGoF ((sortedDebtors bs).length + (sortedCreditors bs).length)
        (sortedDebtors bs) (sortedCreditors bs) 0 0).map LoopResult.txns
      = some ts) :
    simplify_debts bs = ts := by
  rw [simplifyGoF_spec ((sortedDebtors bs).length + (sortedCreditors bs).length)
    (sortedDebtors bs) (sortedCreditors bs) 0 0 (by omega)] at h
  simp only [Option.map_some', Option.some.injEq] at h
  exact h

/-- The loop emits strictly fewer transactions than it has list entries
ahead of the cursors (each transaction advances a cursor, and the loop
stops as soon as one side runs out). -/
theorem simplifyGo_txns_length : ∀ (sd sc : List (String × ℚ)) (d c : ℕ),
    (simplifyGo sd sc d c).txns.length ≤ sd.length - d + (sc.length - c) - 1 := by
  intro sd sc d c
  induction sd, sc, d, c using simplifyGo.induct with
  | case1 sd sc d c h hp ih =>
    rw [simplifyGo_skip sd sc d c h.1 h.2 hp]
    omega
  | case2 sd sc d c h hp ih =>
    rw [simplifyGo_emit sd sc d c h.1 h.2 hp]
    dsimp only
    simp only [List.length_cons]
    simp only [dite_eq_ite, List.length_set] at ih
    rcases emit_advance (sd.get ⟨d, h.1⟩).2 (sc.get ⟨c, h.2⟩).2 with hA | hB
    · rw [if_pos hA] at ih ⊢
      revert ih
      split_ifs <;> omega
    · rw [if_pos hB] at ih ⊢
      revert ih
      split_ifs <;> omega
  | case3 sd sc d c h =>
    rw [simplifyGo_stop sd sc d c h]
    exact Nat.zero_le _

theorem debtors_creditors_count (bs : List (String × ℚ)) :
    (debtorsOf bs).length + (creditorsOf bs).length = countNonzero bs := by
  induction bs with
  | nil => rfl
  | cons x rest ih =>
    unfold debtorsOf creditorsOf countNonzero at ih ⊢
    simp only [List.filter_cons]
    rcases lt_trichotomy x.2 0 with hx | hx | hx
    · rw [if_pos (by simpa using hx),
        if_neg (by simpa using (by linarith : ¬ (0 : ℚ) < x.2)),
        if_pos (by simpa using (by linarith : x.2 ≠ 0))]
      simp only [List.length_cons]
      omega
    · rw [if_neg (by simpa using (by linarith : ¬ x.2 < 0)),
        if_neg (by simpa using (by linarith : ¬ (0 : ℚ) < x.2)),
        if_neg (by simpa using hx)]
      exact ih
    · rw [if_neg (by simpa using (by linarith : ¬ x.2 < 0)),
        if_pos (by simpa using hx),
        if_pos (by simpa using (by linarith : x.2 ≠ 0))]
      simp only [List.length_cons]
      omega

/-! ## Claims about the simplification loop (bounds and steps) -/

/-- C5: the loop of `simplify_debts` terminates for every input balance
map — zero-sum or not — within `|debtors| + |creditors|` iterations (the
fuel-bounded run with exactly that much fuel completes and agrees with the
loop), and it stops as soon as either cursor exhausts its list, returning
the state unchanged. -/
theorem termination_bound_c5 :
    (∀ bs : List (String × ℚ),
      simplifyGoF ((sortedDebtors bs).length + (sortedCreditors bs).length)
        (sortedDebtors bs) (sortedCreditors bs) 0 0
        = some (simplifyGo (sortedDebtors bs) (sortedCreditors bs) 0 0))
    ∧ ∀ (sd sc : List (String × ℚ)) (d c : ℕ),
        ¬(d < sd.length ∧ c < sc.length) →
        simplifyGo sd sc d c = ⟨[], sd, sc, d, c⟩ :=
  ⟨fun bs => simplifyGoF_spec _ _ _ _ _ (by omega), simplifyGo_stop⟩

/-- Witness for C5: the loop stops immediately when the debtor list is
exhausted. -/
theorem termination_bound_c5_witness :
    simplifyGo [] [("A", 5)] 0 0 = ⟨[], [], [("A", 5)], 0, 0⟩ :=
  termination_bound_c5.2 [] [("A", 5)] 0 0 (by simp)

/-- C8: when the candidate payment `min(-debtor_amount, creditor_amount)`
is below 0.01, no transaction is emitted and only the debtor cursor
advances (the lists and the creditor cursor are untouched); consequently
balances `{A: 0.005, B: -0.005}` produce no payments. -/
theorem residual_suppression_c8 :
    (∀ (sd sc : List (String × ℚ)) (d c : ℕ)
      (h1 : d < sd.length) (h2 : c < sc.length),
      min (-(sd.get ⟨d, h1⟩).2) (sc.get ⟨c, h2⟩).2 < 1/100 →
      simplifyGo sd sc d c = simplifyGo sd sc (d + 1) c)
    ∧ simplify_debts [("A", 1/200), ("B", -(1/200))] = [] :=
  ⟨simplifyGo_skip, simplify_debts_eval _ _ (by with_unfolding_all decide)⟩

/-- Witness for C8 at the concrete state of balances `{A: 0.005, B: -0.005}`. -/
theorem residual_suppression_c8_witness :
    simplifyGo [("B", -(1/200))] [("A", 1/200)] 0 0
      = simplifyGo [("B", -(1/200))] [("A", 1/200)] 1 0 :=
  residual_suppression_c8.1 [("B", -(1/200))] [("A", 1/200)] 0 0
    (by simp) (by simp) (by with_unfolding_all decide)

/-- C6: for a zero-sum map with `n` non-zero balances, `simplify_debts`
emits at most `n - 1` payments; on `{A: 300, B: -100, C: -200}` it emits
exactly the two payments `C → A 200` then `B → A 100`, in the order fixed
by the sort rule (most negative debtor first, largest creditor first). -/
theorem minimality_c6 :
    (∀ bs : List (String × ℚ), vsum bs = 0 →
      (simplify_debts bs).length ≤ countNonzero bs - 1)
    ∧ simplify_debts [("A", 300), ("B", -100), ("C", -200)]
        = [⟨"C", "A", 200⟩, ⟨"B", "A", 100⟩] := by
  constructor
  · intro bs hsum
    have hlen := simplifyGo_txns_length (sortedDebtors bs) (sortedCreditors bs) 0 0
    have e1 : (sortedDebtors bs).length = (debtorsOf bs).length :=
      (List.perm_insertionSort leD _).length_eq
    have e2 : (sortedCreditors bs).length = (creditorsOf bs).length :=
      (List.perm_insertionSort leC _).length_eq
    have e3 := debtors_creditors_count bs
    unfold simplify_debts
    omega
  · exact simplify_debts_eval _ _ (by with_unfolding_all decide)

/-- Witness for C6 at the concrete zero-sum map `{A: 300, B: -100, C: -200}`. -/
theorem minimality_c6_witness :
    (simplify_debts [("A", 300), ("B", -100), ("C", -200)]).length
      ≤ countNonzero [("A", 300), ("B", -100), ("C", -200)] - 1 :=
  minimality_c6.1 [("A", 300), ("B", -100), ("C", -200)]
    (by with_unfolding_all decide)

/-! ## Determinism under re-ordering of the balance map -/

/-- Two lists of (name, value) pairs that are permutations of one another,
both sorted by a relation that is antisymmetric on values, and whose values
are pairwise distinct, are equal. -/
theorem sorted_perm_eq (r : String × ℚ → String × ℚ → Prop)
    (hr : ∀ a b, r a b → r b a → a.2 = b.2) :
    ∀ (l₁ l₂ : List (String × ℚ)), l₁.Perm l₂ →
      l₁.Pairwise r → l₂.Pairwise r → (l₁.map Prod.snd).Nodup → l₁ = l₂ := by
  intro l₁
  induction l₁ with
  | nil =>
    intro l₂ hp _ _ _
    exact (List.perm_nil.mp hp.symm).symm
  | cons x t₁ ih =>
    intro l₂ hp hs₁ hs₂ hnd
    cases l₂ with
    | nil => exact absurd (List.perm_nil.mp hp) (by simp)
    | cons y t₂ =>
      have hx2 : x ∈ y :: t₂ := hp.subset (by simp)
      have hy1 : y ∈ x :: t₁ := hp.symm.subset (by simp)
      have hnd2 : x.2 ∉ t₁.map Prod.snd ∧ (t₁.map Prod.snd).Nodup := by
        rw [List.map_cons, List.nodup_cons] at hnd
        exact hnd
      have hxy : x = y := by
        rcases List.mem_cons.mp hx2 with hh | hxt2
        · exact hh
        rcases List.mem_cons.mp hy1 with hh | hyt1
        · exact hh.symm
        have hrxy : r x y := (List.pairwise_cons.mp hs₁).1 y hyt1
        have hryx : r y x := (List.pairwise_cons.mp hs₂).1 x hxt2
        have hval : x.2 = y.2 := hr x y hrxy hryx
        have hmem : x.2 ∈ t₁.map Prod.snd := by
          rw [hval]
          exact List.mem_map_of_mem Prod.snd hyt1
        exact absurd hmem hnd2.1
      subst hxy
      have ht : t₁ = t₂ :=
        ih t₂ hp.cons_inv (List.pairwise_cons.mp hs₁).2
          (List.pairwise_cons.mp hs₂).2 hnd2.2
      rw [ht]

theorem values_nodup_sortedDebtors (bs : List (String × ℚ))
    (hvals : (bs.map Prod.snd).Nodup) :
    ((sortedDebtors bs).map Prod.snd).Nodup := by
  have h1 : ((debtorsOf bs).map Prod.snd).Nodup :=
    List.Nodup.sublist ((List.filter_sublist bs).map Prod.snd) hvals
  exact ((List.perm_insertionSort leD (debtorsOf bs)).map Prod.snd).nodup_iff.mpr h1

theorem values_nodup_sortedCreditors (bs : List (String × ℚ))
    (hvals : (bs.map Prod.snd).Nodup) :
    ((sortedCreditors bs).map Prod.snd).Nodup := by
  have h1 : ((creditorsOf bs).map Prod.snd).Nodup :=
    List.Nodup.sublist ((List.filter_sublist bs).map Prod.snd) hvals
  exact ((List.perm_insertionSort leC (creditorsOf bs)).map Prod.snd).nodup_iff.mpr h1

/-! ## Helper lemmas for the settlement analysis -/

theorem vsum_set (l : List (String × ℚ)) (i : ℕ) (hi : i < l.length)
    (x : String × ℚ) :
    vsum (l.set i x) = vsum l - l[i].2 + x.2 := by
  induction l generalizing i with
  | nil => simp at hi
  | cons y t ih =>
    cases i with
    | zero =>
      simp only [List.set_cons_zero, vsum_cons, List.getElem_cons_zero]
      ring
    | succ n =>
      simp only [List.set_cons_succ, vsum_cons, List.getElem_cons_succ]
      rw [ih n (by simpa using hi)]
      ring

theorem vsum_le_mul (l : List (String × ℚ)) (b : ℚ) (h : ∀ x ∈ l, x.2 ≤ b) :
    vsum l ≤ (l.length : ℚ) * b := by
  induction l with
  | nil => simp [vsum]
  | cons x t ih =>
    rw [vsum_cons]
    have h1 := h x (by simp)
    have h2 := ih fun y hy => h y (by simp [hy])
    have h3 : (((x :: t).length : ℚ)) * b = (t.length : ℚ) * b + b := by
      push_cast [List.length_cons]
      ring
    rw [h3]
    linarith

theorem mul_le_vsum (l : List (String × ℚ)) (b : ℚ) (h : ∀ x ∈ l, b ≤ x.2) :
    (l.length : ℚ) * b ≤ vsum l := by
  induction l with
  | nil => simp [vsum]
  | cons x t ih =>
    rw [vsum_cons]
    have h1 := h x (by simp)
    have h2 := ih fun y hy => h y (by simp [hy])
    have h3 : (((x :: t).length : ℚ)) * b = (t.length : ℚ) * b + b := by
      push_cast [List.length_cons]
      ring
    rw [h3]
    linarith

theorem vsum_le_single (l : List (String × ℚ)) (x : String × ℚ)
    (h : ∀ y ∈ l, y.2 ≤ 0) (hx : x ∈ l) : vsum l ≤ x.2 := by
  induction l with
  | nil => simp at hx
  | cons y t ih =>
    rw [vsum_cons]
    rcases List.mem_cons.mp hx with rfl | hxt
    · have h1 : vsum t ≤ (t.length : ℚ) * 0 :=
        vsum_le_mul t 0 fun z hz => h z (by simp [hz])
      simp at h1
      linarith
    · have h1 := ih (fun z hz => h z (by simp [hz])) hxt
      have h2 := h y (by simp)
      linarith

theorem single_le_vsum (l : List (String × ℚ)) (x : String × ℚ)
    (h : ∀ y ∈ l, 0 ≤ y.2) (hx : x ∈ l) : x.2 ≤ vsum l := by
  induction l with
  | nil => simp at hx
  | cons y t ih =>
    rw [vsum_cons]
    rcases List.mem_cons.mp hx with rfl | hxt
    · have h1 : ((t.length : ℚ)) * 0 ≤ vsum t :=
        mul_le_vsum t 0 fun z hz => h z (by simp [hz])
      simp at h1
      linarith
    · have h1 := ih (fun z hz => h z (by simp [hz])) hxt
      have h2 := h y (by simp)
      linarith

theorem keys_nodup_val_eq (bs : List (String × ℚ))
    (hk : (bs.map Prod.fst).Nodup) (p : String) (v1 v2 : ℚ)
    (h1 : (p, v1) ∈ bs) (h2 : (p, v2) ∈ bs) : v1 = v2 := by
  induction bs with
  | nil => simp at h1
  | cons y t ih =>
    obtain ⟨q, w⟩ := y
    rw [List.map_cons, List.nodup_cons] at hk
    rcases List.mem_cons.mp h1 with he1 | ht1
    · rcases List.mem_cons.mp h2 with he2 | ht2
      · injection he1 with ha1 hb1
        injection he2 with ha2 hb2
        rw [hb1, hb2]
      · injection he1 with ha1 hb1
        subst ha1
        exact absurd (List.mem_map_of_mem Prod.fst ht2) hk.1
    · rcases List.mem_cons.mp h2 with he2 | ht2
      · injection he2 with ha2 hb2
        subst ha2
        exact absurd (List.mem_map_of_mem Prod.fst ht1) hk.1
      · exact ih hk.2 ht1 ht2

theorem lookup0_eq_of_mem (bs : List (String × ℚ))
    (hk : (bs.map Prod.fst).Nodup) (p : String) (v : ℚ)
    (h : (p, v) ∈ bs) : lookup0 bs p = v := by
  induction bs with
  | nil => simp at h
  | cons y t ih =>
    obtain ⟨q, w⟩ := y
    rw [List.map_cons, List.nodup_cons] at hk
    rcases List.mem_cons.mp h with he | ht
    · injection he with ha hb
      subst ha
      subst hb
      simp [lookup0]
    · have hq : ¬ q = p := by
        intro hqe
        subst hqe
        have hmem : q ∈ List.map Prod.fst t := by
          simpa using List.mem_map_of_mem Prod.fst ht
        exact (by simpa using hk.1 : q ∉ List.map Prod.fst t) hmem
      simp only [lookup0, if_neg hq]
      exact ih hk.2 ht

theorem lookup0_eq_zero (bs : List (String × ℚ)) (p : String)
    (h : p ∉ bs.map Prod.fst) : lookup0 bs p = 0 := by
  induction bs with
  | nil => rfl
  | cons y t ih =>
    obtain ⟨q, w⟩ := y
    rw [List.map_cons, List.mem_cons] at h
    push_neg at h
    have hq : ¬ q = p := fun hqe => h.1 (by simp [hqe])
    simp only [lookup0, if_neg hq]
    exact ih h.2

theorem paidBy_cons (t : Txn) (ts : List Txn) (p : String) :
    paidBy (t :: ts) p
      = (if t.debtor_name = p then t.payment else 0) + paidBy ts p := by
  simp [paidBy]

theorem recvBy_cons (t : Txn) (ts : List Txn) (p : String) :
    recvBy (t :: ts) p
      = (if t.creditor_name = p then t.payment else 0) + recvBy ts p := by
  simp [recvBy]

theorem paidBy_eq_zero (ts : List Txn) (p : String)
    (h : ∀ t ∈ ts, t.debtor_name ≠ p) : paidBy ts p = 0 := by
  induction ts with
  | nil => rfl
  | cons t rest ih =>
    rw [paidBy_cons, if_neg (h t (by simp)), ih fun u hu => h u (by simp [hu])]
    ring

theorem recvBy_eq_zero (ts : List Txn) (p : String)
    (h : ∀ t ∈ ts, t.creditor_name ≠ p) : recvBy ts p = 0 := by
  induction ts with
  | nil => rfl
  | cons t rest ih =>
    rw [recvBy_cons, if_neg (h t (by simp)), ih fun u hu => h u (by simp [hu])]
    ring

theorem map_fst_set (l : List (String × ℚ)) (i : ℕ) (hi : i < l.length)
    (x : ℚ) :
    (l.set i (l[i].1, x)).map Prod.fst = l.map Prod.fst := by
  induction l generalizing i with
  | nil => simp
  | cons y t ih =>
    cases i with
    | zero => simp
    | succ n =>
      simp only [List.getElem_cons_succ, List.set_cons_succ, List.map_cons]
      rw [ih n (by simpa using hi)]

theorem vsum_split (bs : List (String × ℚ)) :
    vsum (debtorsOf bs) + vsum (creditorsOf bs) = vsum bs := by
  induction bs with
  | nil => simp [debtorsOf, creditorsOf, vsum]
  | cons x t ih =>
    unfold debtorsOf creditorsOf at ih ⊢
    simp only [List.filter_cons]
    rcases lt_trichotomy x.2 0 with hx | hx | hx
    · rw [if_pos (by simpa using hx),
        if_neg (by simpa using (by linarith : ¬ (0 : ℚ) < x.2))]
      rw [vsum_cons, vsum_cons]
      linarith
    · rw [if_neg (by simpa using (by linarith : ¬ x.2 < 0)),
        if_neg (by simpa using (by linarith : ¬ (0 : ℚ) < x.2))]
      rw [vsum_cons]
      linarith
    · rw [if_neg (by simpa using (by linarith : ¬ x.2 < 0)),
        if_pos (by simpa using hx)]
      rw [vsum_cons, vsum_cons]
      linarith

theorem getElem_mem_drop (l : List (String × ℚ)) (k j : ℕ)
    (hj : j < l.length) (hkj : k ≤ j) : l[j] ∈ l.drop k := by
  have hlt : j - k < (l.drop k).length := by
    simp only [List.length_drop]
    omega
  have he : (l.drop k)[j - k] = l[j] := by
    rw [List.getElem_drop]
    congr 1
    omega
  rw [← he]
  exact List.getElem_mem hlt

/-- Final-state structure of the loop: list lengths are preserved, cursors
only move forward and stay bounded, and the loop guard fails at the end. -/
theorem simplifyGo_state : ∀ (sd sc : List (String × ℚ)) (d c : ℕ),
    (simplifyGo sd sc d c).sd.length = sd.length
    ∧ (simplifyGo sd sc d c).sc.length = sc.length
    ∧ d ≤ (simplifyGo sd sc d c).d
    ∧ c ≤ (simplifyGo sd sc d c).c
    ∧ (d ≤ sd.length → (simplifyGo sd sc d c).d ≤ sd.length)
    ∧ (c ≤ sc.length → (simplifyGo sd sc d c).c ≤ sc.length)
    ∧ ¬((simplifyGo sd sc d c).d < sd.length
        ∧ (simplifyGo sd sc d c).c < sc.length) := by
  intro sd sc d c
  induction sd, sc, d, c using simplifyGo.induct with
  | case1 sd sc d c h hp ih =>
    rw [simplifyGo_skip sd sc d c h.1 h.2 hp]
    obtain ⟨e1, e2, e3, e4, e5, e6, e7⟩ := ih
    exact ⟨e1, e2, by omega, e4, fun _ => e5 (by omega), e6, e7⟩
  | case2 sd sc d c h hp ih =>
    rw [simplifyGo_emit sd sc d c h.1 h.2 hp]
    dsimp only
    obtain ⟨e1, e2, e3, e4, e5, e6, e7⟩ := ih
    simp only [dite_eq_ite, List.length_set] at e1 e2 e3 e4 e5 e6 e7
    split_ifs at e1 e2 e3 e4 e5 e6 e7 ⊢ with hA hB
    all_goals
      exact ⟨e1, e2, by omega, by omega, fun hh => e5 (by omega),
        fun hh => e6 (by omega), e7⟩
  | case3 sd sc d c h =>
    rw [simplifyGo_stop sd sc d c h]
    exact ⟨rfl, rfl, le_refl d, le_refl c, fun hh => hh, fun hh => hh, h⟩

/-- Sign invariant: debtor balances stay nonpositive and creditor balances
stay nonnegative throughout the loop. -/
theorem simplifyGo_signs : ∀ (sd sc : List (String × ℚ)) (d c : ℕ),
    (∀ x ∈ sd, x.2 ≤ 0) → (∀ x ∈ sc, 0 ≤ x.2) →
    (∀ x ∈ (simplifyGo sd sc d c).sd, x.2 ≤ 0)
    ∧ ∀ x ∈ (simplifyGo sd sc d c).sc, 0 ≤ x.2 := by
  intro sd sc d c
  induction sd, sc, d, c using simplifyGo.induct with
  | case1 sd sc d c h hp ih =>
    intro hsd hsc
    rw [simplifyGo_skip sd sc d c h.1 h.2 hp]
    exact ih hsd hsc
  | case2 sd sc d c h hp ih =>
    intro hsd hsc
    rw [simplifyGo_emit sd sc d c h.1 h.2 hp]
    dsimp only
    apply ih
    · intro x hx
      rcases List.mem_or_eq_of_mem_set hx with hmem | rfl
      · exact hsd x hmem
      · have h1 := min_le_left (-(sd.get ⟨d, h.1⟩).2) ((sc.get ⟨c, h.2⟩).2)
        simp only
        linarith
    · intro x hx
      rcases List.mem_or_eq_of_mem_set hx with hmem | rfl
      · exact hsc x hmem
      · have h1 := min_le_right (-(sd.get ⟨d, h.1⟩).2) ((sc.get ⟨c, h.2⟩).2)
        simp only
        linarith
  | case3 sd sc d c h =>
    intro hsd hsc
    rw [simplifyGo_stop sd sc d c h]
    exact ⟨hsd, hsc⟩

/-- The combined balance mass of the two working lists is preserved by the
loop: every payment moves value from one side to the other. -/
theorem simplifyGo_vsum : ∀ (sd sc : List (String × ℚ)) (d c : ℕ),
    vsum (simplifyGo sd sc d c).sd + vsum (simplifyGo sd sc d c).sc
      = vsum sd + vsum sc := by
  intro sd sc d c
  induction sd, sc, d, c using simplifyGo.induct with
  | case1 sd sc d c h hp ih =>
    rw [simplifyGo_skip sd sc d c h.1 h.2 hp]
    exact ih
  | case2 sd sc d c h hp ih =>
    rw [simplifyGo_emit sd sc d c h.1 h.2 hp]
    dsimp only
    simp only [dite_eq_ite] at ih
    rw [ih]
    simp only [List.get_eq_getElem]
    rw [vsum_set sd d h.1 _, vsum_set sc c h.2 _]
    ring
  | case3 sd sc d c h =>
    rw [simplifyGo_stop sd sc d c h]

/-- Every creditor the cursor has moved past holds a residual below 0.01:
the cursor only advances when the updated amount drops under the threshold. -/
theorem simplifyGo_passed_creditors : ∀ (sd sc : List (String × ℚ)) (d c : ℕ),
    (∀ (j : ℕ) (hj : j < sc.length), j < c → sc[j].2 < 1/100) →
    ∀ (j : ℕ) (hj : j < (simplifyGo sd sc d c).sc.length),
      j < (simplifyGo sd sc d c).c → (simplifyGo sd sc d c).sc[j].2 < 1/100 := by
  intro sd sc d c
  induction sd, sc, d, c using simplifyGo.induct with
  | case1 sd sc d c h hp ih =>
    intro hcp
    rw [simplifyGo_skip sd sc d c h.1 h.2 hp]
    exact ih hcp
  | case2 sd sc d c h hp ih =>
    intro hcp
    rw [simplifyGo_emit sd sc d c h.1 h.2 hp]
    dsimp only
    apply ih
    intro j hj hjc
    rw [List.length_set] at hj
    simp only [dite_eq_ite] at hjc
    simp only [List.get_eq_getElem]
    rw [List.getElem_set]
    by_cases hcj : c = j
    · -- c = j : the just-updated creditor; only reachable when the cursor
      -- advanced, i.e. the new amount is below the threshold
      subst hcj
      rw [if_pos rfl]
      by_cases hadv : (sc.get ⟨c, h.2⟩).2
          - min (-(sd.get ⟨d, h.1⟩).2) (sc.get ⟨c, h.2⟩).2 < 1/100
      · simp only [List.get_eq_getElem] at hadv
        simpa using hadv
      · rw [if_neg hadv] at hjc
        omega
    · rw [if_neg hcj]
      have hjlt : j < c := by
        split_ifs at hjc <;> omega
      exact hcp j hj hjlt
  | case3 sd sc d c h =>
    intro hcp
    rw [simplifyGo_stop sd sc d c h]
    exact hcp

/-- If every creditor amount is already below the threshold, the loop only
skips: it emits nothing and leaves both lists untouched. -/
theorem simplifyGo_freeze : ∀ (sd sc : List (String × ℚ)) (d c : ℕ),
    (∀ x ∈ sc, x.2 < 1/100) →
    (simplifyGo sd sc d c).txns = []
    ∧ (simplifyGo sd sc d c).sd = sd
    ∧ (simplifyGo sd sc d c).sc = sc := by
  intro sd sc d c
  induction sd, sc, d, c using simplifyGo.induct with
  | case1 sd sc d c h hp ih =>
    intro hsm
    rw [simplifyGo_skip sd sc d c h.1 h.2 hp]
    exact ih hsm
  | case2 sd sc d c h hp ih =>
    intro hsm
    exact absurd
      (lt_of_le_of_lt (min_le_right (-(sd.get ⟨d, h.1⟩).2) ((sc.get ⟨c, h.2⟩).2))
        (hsm _ (List.get_mem sc c h.2)))
      hp
  | case3 sd sc d c h =>
    intro hsm
    rw [simplifyGo_stop sd sc d c h]
    exact ⟨rfl, rfl, rfl⟩

/-- Every debtor the cursor has moved past either holds a residual below
0.01, or was abandoned because every remaining creditor already stood below
0.01 (in which case the whole creditor side is and remains tiny). -/
theorem simplifyGo_passed_debtors : ∀ (sd sc : List (String × ℚ)) (d c : ℕ),
    (∀ (j : ℕ) (hj : j < sc.length), j < c → sc[j].2 < 1/100) →
    (sc.drop (c + 1)).Pairwise leC →
    (∀ (hc : c < sc.length), 1/100 ≤ sc[c].2
      ∨ ∀ x ∈ sc.drop (c + 1), x.2 ≤ sc[c].2) →
    (∀ (i : ℕ) (hi : i < sd.length), i < d →
      (-(1/100) < sd[i].2 ∨ ∀ x ∈ sc, x.2 < 1/100)) →
    ∀ (i : ℕ) (hi : i < (simplifyGo sd sc d c).sd.length),
      i < (simplifyGo sd sc d c).d →
      (-(1/100) < (simplifyGo sd sc d c).sd[i].2
        ∨ ∀ x ∈ (simplifyGo sd sc d c).sc, x.2 < 1/100) := by
  intro sd sc d c
  induction sd, sc, d, c using simplifyGo.induct with
  | case1 sd sc d c h hp ih =>
    intro hcp hsort hcur hd
    rw [simplifyGo_skip sd sc d c h.1 h.2 hp]
    by_cases hda : -(sd.get ⟨d, h.1⟩).2 < 1/100
    · apply ih hcp hsort hcur
      intro i hi hid
      rcases Nat.lt_or_ge i d with hlt | hge
      · exact hd i hi hlt
      · have hieq : i = d := by omega
        left
        simp only [List.get_eq_getElem] at hda
        subst hieq
        linarith
    · -- the creditor at the cursor is tiny, hence every creditor is tiny
      have hca : (sc.get ⟨c, h.2⟩).2 < 1/100 := by
        rcases min_lt_iff.mp hp with hx | hx
        · exact absurd hx hda
        · exact hx
      simp only [List.get_eq_getElem] at hca
      have hsmall : ∀ x ∈ sc, x.2 < 1/100 := by
        intro x hx
        obtain ⟨j, hj, rfl⟩ := List.mem_iff_getElem.mp hx
        rcases lt_trichotomy j c with hjc | hjc | hjc
        · exact hcp j hj hjc
        · subst hjc
          exact hca
        · rcases hcur h.2 with hcl | hcr
          · linarith
          · have hmem : sc[j] ∈ sc.drop (c + 1) :=
              getElem_mem_drop sc (c + 1) j hj (by omega)
            have hle := hcr _ hmem
            linarith
      have hfr := simplifyGo_freeze sd sc (d + 1) c hsmall
      intro i hi hid
      right
      rw [hfr.2.2]
      exact hsmall
  | case2 sd sc d c h hp ih =>
    intro hcp hsort hcur hd
    rw [simplifyGo_emit sd sc d c h.1 h.2 hp]
    dsimp only
    have hmin : 1/100 ≤ min (-(sd.get ⟨d, h.1⟩).2) ((sc.get ⟨c, h.2⟩).2) :=
      not_lt.mp hp
    have hca_ge : (1:ℚ)/100 ≤ sc[c].2 := by
      have := le_trans hmin (min_le_right _ _)
      simpa [List.get_eq_getElem] using this
    apply ih
    · -- passed creditors stay small in the updated state
      intro j hj hjc
      rw [List.length_set] at hj
      simp only [dite_eq_ite] at hjc
      simp only [List.get_eq_getElem]
      rw [List.getElem_set]
      by_cases hcj : c = j
      · subst hcj
        rw [if_pos rfl]
        by_cases hadv : (sc.get ⟨c, h.2⟩).2
            - min (-(sd.get ⟨d, h.1⟩).2) (sc.get ⟨c, h.2⟩).2 < 1/100
        · simp only [List.get_eq_getElem] at hadv
          simpa using hadv
        · rw [if_neg hadv] at hjc
          omega
      · rw [if_neg hcj]
        have hjlt : j < c := by
          split_ifs at hjc <;> omega
        exact hcp j hj hjlt
    · -- the suffix beyond the new cursor stays sorted
      simp only [dite_eq_ite, List.get_eq_getElem]
      by_cases hB : sc[c].2 - min (-sd[d].2) sc[c].2 < 1/100
      · simp only [if_pos hB]
        rw [List.drop_set, if_pos (by omega : c < c + 1 + 1)]
        have heq : sc.drop (c + 1 + 1) = (sc.drop (c + 1)).drop 1 := by
          rw [List.drop_drop]
        rw [heq]
        exact List.Pairwise.sublist (List.drop_sublist 1 _) hsort
      · simp only [if_neg hB]
        rw [List.drop_set, if_pos (by omega : c < c + 1)]
        exact hsort
    · -- the entry at the new cursor dominates its suffix, or is ≥ 0.01
      simp only [dite_eq_ite, List.get_eq_getElem]
      by_cases hB : sc[c].2 - min (-sd[d].2) sc[c].2 < 1/100
      · simp only [if_pos hB]
        intro hc1
        rw [List.length_set] at hc1
        right
        rw [List.drop_set, if_pos (by omega : c < c + 1 + 1)]
        rw [List.getElem_set_ne (by omega : c ≠ c + 1)]
        have hdc : sc.drop (c + 1) = sc[c + 1] :: sc.drop (c + 1 + 1) :=
          List.drop_eq_getElem_cons hc1
        have hpc := (List.pairwise_cons.mp (hdc ▸ hsort)).1
        intro x hx
        exact hpc x hx
      · simp only [if_neg hB]
        intro hc1
        left
        rw [List.getElem_set_self]
        simpa using not_lt.mp hB
    · -- previously passed debtors keep their status
      intro i hi0 hid
      rw [List.length_set] at hi0
      simp only [dite_eq_ite, List.get_eq_getElem] at hid
      simp only [List.get_eq_getElem]
      have hstep : ∀ (hii : i < d),
          -(1/100) < (sd.set d (sd[d].1, sd[d].2
            + min (-sd[d].2) sc[c].2))[i].2 := by
        intro hii
        rw [List.getElem_set_ne (by omega : d ≠ i)]
        rcases hd i hi0 hii with hl | hsm
        · exact hl
        · exfalso
          have := hsm sc[c] (List.getElem_mem h.2)
          linarith
      by_cases hA : -(1/100) < sd[d].2 + min (-sd[d].2) sc[c].2
      · rw [if_pos hA] at hid
        rcases Nat.lt_or_ge i d with hlt | hge
        · exact Or.inl (hstep hlt)
        · have hieq : i = d := by omega
          subst hieq
          left
          rw [List.getElem_set_self]
          exact hA
      · rw [if_neg hA] at hid
        exact Or.inl (hstep hid)
  | case3 sd sc d c h =>
    intro hcp hsort hcur hd
    rw [simplifyGo_stop sd sc d c h]
    exact hd

/-- Accounting: when both working lists carry pairwise-distinct names, the
final value at each position equals the initial value plus everything that
name paid (for debtors) resp. minus everything it received (for creditors),
and every emitted transaction names a debtor of `sd` and a creditor of `sc`. -/
theorem simplifyGo_account : ∀ (sd sc : List (String × ℚ)) (d c : ℕ),
    (sd.map Prod.fst).Nodup → (sc.map Prod.fst).Nodup →
    (∀ (i : ℕ) (hi : i < sd.length)
      (hi2 : i < (simplifyGo sd sc d c).sd.length),
      (simplifyGo sd sc d c).sd[i]
        = (sd[i].1, sd[i].2 + paidBy (simplifyGo sd sc d c).txns sd[i].1))
    ∧ (∀ (j : ℕ) (hj : j < sc.length)
      (hj2 : j < (simplifyGo sd sc d c).sc.length),
      (simplifyGo sd sc d c).sc[j]
        = (sc[j].1, sc[j].2 - recvBy (simplifyGo sd sc d c).txns sc[j].1))
    ∧ ∀ t ∈ (simplifyGo sd sc d c).txns,
        t.debtor_name ∈ sd.map Prod.fst ∧ t.creditor_name ∈ sc.map Prod.fst := by
  intro sd sc d c
  induction sd, sc, d, c using simplifyGo.induct with
  | case1 sd sc d c h hp ih =>
    intro hn1 hn2
    rw [simplifyGo_skip sd sc d c h.1 h.2 hp]
    exact ih hn1 hn2
  | case2 sd sc d c h hp ih =>
    intro hn1 hn2
    have hmap1 : ((sd.set d ((sd.get ⟨d, h.1⟩).1, (sd.get ⟨d, h.1⟩).2
        + min (-(sd.get ⟨d, h.1⟩).2) (sc.get ⟨c, h.2⟩).2)).map Prod.fst)
        = sd.map Prod.fst := by
      simp only [List.get_eq_getElem]
      exact map_fst_set sd d h.1 _
    have hmap2 : ((sc.set c ((sc.get ⟨c, h.2⟩).1, (sc.get ⟨c, h.2⟩).2
        - min (-(sd.get ⟨d, h.1⟩).2) (sc.get ⟨c, h.2⟩).2)).map Prod.fst)
        = sc.map Prod.fst := by
      simp only [List.get_eq_getElem]
      exact map_fst_set sc c h.2 _
    obtain ⟨ga, gb, gc⟩ := ih (by rw [hmap1]; exact hn1) (by rw [hmap2]; exact hn2)
    rw [simplifyGo_emit sd sc d c h.1 h.2 hp]
    dsimp only
    simp only [List.get_eq_getElem] at hmap1 hmap2
    simp only [dite_eq_ite, List.get_eq_getElem] at ga gb gc ⊢
    have hdlen : d < (sd.map Prod.fst).length := by
      simpa using h.1
    have hclen : c < (sc.map Prod.fst).length := by
      simpa using h.2
    refine ⟨?_, ?_, ?_⟩
    · intro i hi hi2
      have hi0 : i < (sd.set d (sd[d].1, sd[d].2
          + min (-sd[d].2) sc[c].2)).length := by
        rw [List.length_set]
        exact hi
      have hga := ga i hi0 hi2
      rw [paidBy_cons]
      dsimp only
      by_cases hdi : d = i
      · subst hdi
        rw [List.getElem_set_self] at hga
        dsimp only at hga
        rw [hga, if_pos rfl]
        simp only [Prod.mk.injEq, true_and]
        ring
      · rw [List.getElem_set_ne hdi] at hga
        have hne : ¬ sd[d].1 = sd[i].1 := by
          intro heq
          have hi1 : i < (sd.map Prod.fst).length := by
            simpa using hi
          have hmeq : (sd.map Prod.fst)[d] = (sd.map Prod.fst)[i] := by
            rw [List.getElem_map, List.getElem_map]
            exact heq
          exact hdi ((hn1.getElem_inj_iff).mp hmeq)
        rw [hga, if_neg hne]
        simp only [Prod.mk.injEq, true_and]
        ring
    · intro j hj hj2
      have hj0 : j < (sc.set c (sc[c].1, sc[c].2
          - min (-sd[d].2) sc[c].2)).length := by
        rw [List.length_set]
        exact hj
      have hgb := gb j hj0 hj2
      rw [recvBy_cons]
      dsimp only
      by_cases hcj : c = j
      · subst hcj
        rw [List.getElem_set_self] at hgb
        dsimp only at hgb
        rw [hgb, if_pos rfl]
        simp only [Prod.mk.injEq, true_and]
        ring
      · rw [List.getElem_set_ne hcj] at hgb
        have hne : ¬ sc[c].1 = sc[j].1 := by
          intro heq
          have hj1 : j < (sc.map Prod.fst).length := by
            simpa using hj
          have hmeq : (sc.map Prod.fst)[c] = (sc.map Prod.fst)[j] := by
            rw [List.getElem_map, List.getElem_map]
            exact heq
          exact hcj ((hn2.getElem_inj_iff).mp hmeq)
        rw [hgb, if_neg hne]
        simp only [Prod.mk.injEq, true_and]
        ring
    · intro t ht
      rcases List.mem_cons.mp ht with rfl | htr
      · constructor
        · have : sd[d].1 = (sd.map Prod.fst)[d] := by
            rw [List.getElem_map]
          rw [this]
          exact List.getElem_mem hdlen
        · have : sc[c].1 = (sc.map Prod.fst)[c] := by
            rw [List.getElem_map]
          rw [this]
          exact List.getElem_mem hclen
      · have := gc t htr
        rw [hmap1, hmap2] at this
        exact this
  | case3 sd sc d c h =>
    intro hn1 hn2
    rw [simplifyGo_stop sd sc d c h]
    refine ⟨?_, ?_, ?_⟩
    · intro i hi hi2
      simp [paidBy]
    · intro j hj hj2
      simp [recvBy]
    · intro t ht
      simp at ht

theorem mem_sortedDebtors (bs : List (String × ℚ)) (x : String × ℚ) :
    x ∈ sortedDebtors bs ↔ (x ∈ bs ∧ x.2 < 0) := by
  unfold sortedDebtors debtorsOf
  rw [(List.perm_insertionSort leD _).mem_iff, List.mem_filter]
  simp

theorem mem_sortedCreditors (bs : List (String × ℚ)) (x : String × ℚ) :
    x ∈ sortedCreditors bs ↔ (x ∈ bs ∧ 0 < x.2) := by
  unfold sortedCreditors creditorsOf
  rw [(List.perm_insertionSort leC _).mem_iff, List.mem_filter]
  simp

theorem sortedDebtors_names_nodup (bs : List (String × ℚ))
    (hk : (bs.map Prod.fst).Nodup) :
    ((sortedDebtors bs).map Prod.fst).Nodup := by
  have h1 : ((debtorsOf bs).map Prod.fst).Nodup :=
    List.Nodup.sublist ((List.filter_sublist bs).map Prod.fst) hk
  exact ((List.perm_insertionSort leD (debtorsOf bs)).map Prod.fst).nodup_iff.mpr h1

theorem sortedCreditors_names_nodup (bs : List (String × ℚ))
    (hk : (bs.map Prod.fst).Nodup) :
    ((sortedCreditors bs).map Prod.fst).Nodup := by
  have h1 : ((creditorsOf bs).map Prod.fst).Nodup :=
    List.Nodup.sublist ((List.filter_sublist bs).map Prod.fst) hk
  exact ((List.perm_insertionSort leC (creditorsOf bs)).map Prod.fst).nodup_iff.mpr h1

theorem sorted_names_disjoint (bs : List (String × ℚ))
    (hk : (bs.map Prod.fst).Nodup) (nm : String)
    (h1 : nm ∈ (sortedDebtors bs).map Prod.fst)
    (h2 : nm ∈ (sortedCreditors bs).map Prod.fst) : False := by
  obtain ⟨x, hx, hx1⟩ := List.mem_map.mp h1
  obtain ⟨y, hy, hy1⟩ := List.mem_map.mp h2
  rw [mem_sortedDebtors] at hx
  rw [mem_sortedCreditors] at hy
  have hxx : (nm, x.2) ∈ bs := by
    rw [← hx1, Prod.mk.eta]
    exact hx.1
  have hyy : (nm, y.2) ∈ bs := by
    rw [← hy1, Prod.mk.eta]
    exact hy.1
  have := keys_nodup_val_eq bs hk nm x.2 y.2 hxx hyy
  have hx2 := hx.2
  have hy2 := hy.2
  linarith

theorem sortedDebtors_names_sub (bs : List (String × ℚ)) (nm : String)
    (h : nm ∈ (sortedDebtors bs).map Prod.fst) : nm ∈ bs.map Prod.fst := by
  obtain ⟨x, hx, hx1⟩ := List.mem_map.mp h
  rw [mem_sortedDebtors] at hx
  exact hx1 ▸ List.mem_map_of_mem Prod.fst hx.1

theorem sortedCreditors_names_sub (bs : List (String × ℚ)) (nm : String)
    (h : nm ∈ (sortedCreditors bs).map Prod.fst) : nm ∈ bs.map Prod.fst := by
  obtain ⟨x, hx, hx1⟩ := List.mem_map.mp h
  rw [mem_sortedCreditors] at hx
  exact hx1 ▸ List.mem_map_of_mem Prod.fst hx.1

theorem vsum_sorted_split (bs : List (String × ℚ)) :
    vsum (sortedDebtors bs) + vsum (sortedCreditors bs) = vsum bs := by
  have h1 : vsum (sortedDebtors bs) = vsum (debtorsOf bs) :=
    ((List.perm_insertionSort leD (debtorsOf bs)).map Prod.snd).sum_eq
  have h2 : vsum (sortedCreditors bs) = vsum (creditorsOf bs) :=
    ((List.perm_insertionSort leC (creditorsOf bs)).map Prod.snd).sum_eq
  rw [h1, h2, vsum_split]

theorem countNonzero_eq_sorted (bs : List (String × ℚ)) :
    countNonzero bs = (sortedDebtors bs).length + (sortedCreditors bs).length := by
  have e1 : (sortedDebtors bs).length = (debtorsOf bs).length :=
    (List.perm_insertionSort leD _).length_eq
  have e2 : (sortedCreditors bs).length = (creditorsOf bs).length :=
    (List.perm_insertionSort leC _).length_eq
  have e3 := debtors_creditors_count bs
  omega

/-- C1, counterexample: the balance map
`{A: -0.054, B1..B6: 0.009}` sums to exactly zero, yet `simplify_debts`
emits no payment at all (every candidate payment is below 0.01), leaving
A's balance at -0.054, far outside the claimed 0.01 tolerance. -/
theorem settlement_counterexample_c1 :
    vsum [("A", -27/500), ("B1", 9/1000), ("B2", 9/1000), ("B3", 9/1000),
      ("B4", 9/1000), ("B5", 9/1000), ("B6", 9/1000)] = 0
    ∧ ¬ (∀ p, |balanceAfter
        [("A", -27/500), ("B1", 9/1000), ("B2", 9/1000), ("B3", 9/1000),
          ("B4", 9/1000), ("B5", 9/1000), ("B6", 9/1000)]
        (simplify_debts
          [("A", -27/500), ("B1", 9/1000), ("B2", 9/1000), ("B3", 9/1000),
            ("B4", 9/1000), ("B5", 9/1000), ("B6", 9/1000)]) p| < 1/100) := by
  constructor
  · with_unfolding_all decide
  · intro hall
    have htx : simplify_debts
        [("A", -27/500), ("B1", 9/1000), ("B2", 9/1000), ("B3", 9/1000),
          ("B4", 9/1000), ("B5", 9/1000), ("B6", 9/1000)] = [] :=
      simplify_debts_eval _ _ (by with_unfolding_all decide)
    have h := hall "A"
    rw [htx] at h
    exact absurd h (by with_unfolding_all decide)

/-- C1, amended: for a balance map with pairwise-distinct keys whose values
sum to exactly zero and which has at least one non-zero balance, applying
every emitted payment leaves every balance with absolute value strictly
below `0.01 × (number of non-zero balances)` — the single-run residual can
exceed 0.01 itself, but only by a factor bounded by the participant count. -/
theorem settlement_c1 (bs : List (String × ℚ))
    (hkeys : (bs.map Prod.fst).Nodup) (hsum : vsum bs = 0)
    (hnz : 0 < countNonzero bs) (p : String) :
    |balanceAfter bs (simplify_debts bs) p|
      < (1/100) * (countNonzero bs : ℚ) := by
  have hnD := sortedDebtors_names_nodup bs hkeys
  have hnC := sortedCreditors_names_nodup bs hkeys
  obtain ⟨ga, gb, gc⟩ :=
    simplifyGo_account (sortedDebtors bs) (sortedCreditors bs) 0 0 hnD hnC
  obtain ⟨hsgnD, hsgnC⟩ :=
    simplifyGo_signs (sortedDebtors bs) (sortedCreditors bs) 0 0
      (fun x hx => le_of_lt ((mem_sortedDebtors bs x).mp hx).2)
      (fun x hx => le_of_lt ((mem_sortedCreditors bs x).mp hx).2)
  obtain ⟨l1, l2, hged, hgec, hdle, hcle, hguard⟩ :=
    simplifyGo_state (sortedDebtors bs) (sortedCreditors bs) 0 0
  have hdb := hdle (Nat.zero_le _)
  have hcb := hcle (Nat.zero_le _)
  have hvs := simplifyGo_vsum (sortedDebtors bs) (sortedCreditors bs) 0 0
  have hpc := simplifyGo_passed_creditors (sortedDebtors bs) (sortedCreditors bs)
    0 0 (fun j hj hj0 => absurd hj0 (by omega))
  have hsortC : List.Sorted leC (sortedCreditors bs) :=
    List.sorted_insertionSort leC _
  have hcur0 : ∀ (hc : 0 < (sortedCreditors bs).length),
      1/100 ≤ (sortedCreditors bs)[0].2
      ∨ ∀ x ∈ (sortedCreditors bs).drop (0 + 1),
          x.2 ≤ (sortedCreditors bs)[0].2 := by
    intro hc
    right
    intro x hx
    have h0 := List.drop_eq_getElem_cons (l := sortedCreditors bs) (n := 0) hc
    rw [List.drop_zero] at h0
    have hpw : List.Pairwise leC (sortedCreditors bs) := hsortC
    rw [h0] at hpw
    exact (List.pairwise_cons.mp hpw).1 x hx
  have hpd := simplifyGo_passed_debtors (sortedDebtors bs) (sortedCreditors bs)
    0 0 (fun j hj hj0 => absurd hj0 (by omega))
    (List.Pairwise.sublist (List.drop_sublist (0 + 1) _) hsortC)
    hcur0
    (fun i hi hi0 => absurd hi0 (by omega))
  set r := simplifyGo (sortedDebtors bs) (sortedCreditors bs) 0 0 with hrE
  have hsum_r : vsum r.sd + vsum r.sc = 0 := by
    rw [hvs, vsum_sorted_split, hsum]
  have hkcast : (countNonzero bs : ℚ)
      = ((sortedDebtors bs).length : ℚ) + ((sortedCreditors bs).length : ℚ) := by
    exact_mod_cast countNonzero_eq_sorted bs
  have hk1 : (1 : ℚ) ≤ (countNonzero bs : ℚ) := by exact_mod_cast hnz
  have htx : simplify_debts bs = r.txns := rfl
  by_cases hmemD : p ∈ (sortedDebtors bs).map Prod.fst
  · -- p is one of the debtors
    obtain ⟨x, hxmem, hx1⟩ := List.mem_map.mp hmemD
    obtain ⟨i, hiL, hxi⟩ := List.mem_iff_getElem.mp hxmem
    have hx_in_bs : (p, x.2) ∈ bs := by
      rw [← hx1, Prod.mk.eta]
      exact ((mem_sortedDebtors bs x).mp hxmem).1
    have hlk : lookup0 bs p = x.2 := lookup0_eq_of_mem bs hkeys p x.2 hx_in_bs
    have hrecv : recvBy r.txns p = 0 := by
      apply recvBy_eq_zero
      intro t ht hteq
      exact sorted_names_disjoint bs hkeys p hmemD (hteq ▸ (gc t ht).2)
    have hi2 : i < r.sd.length := by omega
    have hga := ga i hiL hi2
    rw [hxi, hx1] at hga
    have hval : balanceAfter bs (simplify_debts bs) p = r.sd[i].2 := by
      rw [htx]
      unfold balanceAfter
      rw [hlk, hrecv, hga]
      dsimp only
      ring
    have hsle : r.sd[i].2 ≤ 0 := hsgnD _ (List.getElem_mem hi2)
    rw [hval, abs_of_nonpos hsle]
    have hD1 : (1 : ℚ) ≤ ((sortedDebtors bs).length : ℚ) := by
      have h1 : 1 ≤ (sortedDebtors bs).length := by omega
      exact_mod_cast h1
    have hC0 : (0 : ℚ) ≤ ((sortedCreditors bs).length : ℚ) := by positivity
    have hfin : r.d = (sortedDebtors bs).length
        ∨ r.c = (sortedCreditors bs).length := by omega
    have hsmall_bound : (∀ y ∈ r.sc, y.2 < 1/100)
        → -(r.sd[i].2) < (1/100) * (countNonzero bs : ℚ) := by
      intro hsm
      have h1 : vsum r.sc ≤ ((r.sc.length : ℚ)) * (1/100) :=
        vsum_le_mul _ _ (fun y hy => le_of_lt (hsm y hy))
      have h2 : vsum r.sd ≤ r.sd[i].2 :=
        vsum_le_single _ _ hsgnD (List.getElem_mem hi2)
      have hlen2 : ((r.sc.length : ℚ)) = ((sortedCreditors bs).length : ℚ) := by
        exact_mod_cast l2
      rw [hkcast]
      linarith
    rcases hfin with hfd | hfc
    · rcases hpd i hi2 (by omega) with hl | hsm
      · linarith
      · exact hsmall_bound hsm
    · have hsm : ∀ y ∈ r.sc, y.2 < 1/100 := by
        intro y hy
        obtain ⟨j, hj, rfl⟩ := List.mem_iff_getElem.mp hy
        exact hpc j hj (by omega)
      exact hsmall_bound hsm
  · by_cases hmemC : p ∈ (sortedCreditors bs).map Prod.fst
    · -- p is one of the creditors
      obtain ⟨x, hxmem, hx1⟩ := List.mem_map.mp hmemC
      obtain ⟨j, hjL, hxj⟩ := List.mem_iff_getElem.mp hxmem
      have hx_in_bs : (p, x.2) ∈ bs := by
        rw [← hx1, Prod.mk.eta]
        exact ((mem_sortedCreditors bs x).mp hxmem).1
      have hlk : lookup0 bs p = x.2 := lookup0_eq_of_mem bs hkeys p x.2 hx_in_bs
      have hpaid : paidBy r.txns p = 0 := by
        apply paidBy_eq_zero
        intro t ht hteq
        exact hmemD (hteq ▸ (gc t ht).1)
      have hj2 : j < r.sc.length := by omega
      have hgb := gb j hjL hj2
      rw [hxj, hx1] at hgb
      have hval : balanceAfter bs (simplify_debts bs) p = r.sc[j].2 := by
        rw [htx]
        unfold balanceAfter
        rw [hlk, hpaid, hgb]
        dsimp only
        ring
      have hs0 : 0 ≤ r.sc[j].2 := hsgnC _ (List.getElem_mem hj2)
      rw [hval, abs_of_nonneg hs0]
      have hC1 : (1 : ℚ) ≤ ((sortedCreditors bs).length : ℚ) := by
        have h1 : 1 ≤ (sortedCreditors bs).length := by omega
        exact_mod_cast h1
      have hD0 : (0 : ℚ) ≤ ((sortedDebtors bs).length : ℚ) := by positivity
      by_cases hjr : j < r.c
      · have hlt := hpc j hj2 hjr
        rw [hkcast]
        linarith
      · have hrd : r.d = (sortedDebtors bs).length := by omega
        by_cases hsm : ∀ y ∈ r.sc, y.2 < 1/100
        · have hlt := hsm _ (List.getElem_mem hj2)
          rw [hkcast]
          linarith
        · have hall : ∀ y ∈ r.sd, -(1/100) ≤ y.2 := by
            intro y hy
            obtain ⟨i, hi, rfl⟩ := List.mem_iff_getElem.mp hy
            rcases hpd i hi (by omega) with hl | hs
            · linarith
            · exact absurd hs hsm
          have h1 : ((r.sd.length : ℚ)) * (-(1/100)) ≤ vsum r.sd :=
            mul_le_vsum _ _ hall
          have h2 : r.sc[j].2 ≤ vsum r.sc :=
            single_le_vsum _ _ hsgnC (List.getElem_mem hj2)
          have hlen1 : ((r.sd.length : ℚ)) = ((sortedDebtors bs).length : ℚ) := by
            exact_mod_cast l1
          rw [hkcast]
          linarith
    · -- p holds no positive and no negative balance
      have hpaid : paidBy r.txns p = 0 :=
        paidBy_eq_zero _ _ (fun t ht hteq => hmemD (hteq ▸ (gc t ht).1))
      have hrecv : recvBy r.txns p = 0 :=
        recvBy_eq_zero _ _ (fun t ht hteq => hmemC (hteq ▸ (gc t ht).2))
      have hlk : lookup0 bs p = 0 := by
        by_cases hpk : p ∈ bs.map Prod.fst
        · obtain ⟨x, hx, hx1⟩ := List.mem_map.mp hpk
          have hpx : (p, x.2) ∈ bs := by
            rw [← hx1, Prod.mk.eta]
            exact hx
          rcases lt_trichotomy x.2 0 with hv | hv | hv
          · exfalso
            apply hmemD
            rw [← hx1]
            exact List.mem_map_of_mem Prod.fst
              ((mem_sortedDebtors bs x).mpr ⟨hx, hv⟩)
          · exact (lookup0_eq_of_mem bs hkeys p x.2 hpx).trans hv
          · exfalso
            apply hmemC
            rw [← hx1]
            exact List.mem_map_of_mem Prod.fst
              ((mem_sortedCreditors bs x).mpr ⟨hx, hv⟩)
        · exact lookup0_eq_zero bs p hpk
      rw [htx]
      unfold balanceAfter
      rw [hlk, hpaid, hrecv]
      simp only [add_zero, sub_zero, abs_zero]
      linarith

/-- Witness for the amended C1 at the concrete zero-sum map
`{A: 300, B: -100, C: -200}` and participant B. -/
theorem settlement_c1_witness :
    |balanceAfter [("A", 300), ("B", -100), ("C", -200)]
        (simplify_debts [("A", 300), ("B", -100), ("C", -200)]) "B"|
      < (1/100)
        * (countNonzero [("A", (300:ℚ)), ("B", -100), ("C", -200)] : ℚ) :=
  settlement_c1 [("A", 300), ("B", -100), ("C", -200)]
    (by with_unfolding_all decide) (by with_unfolding_all decide)
    (by with_unfolding_all decide) "B"

/-- C2, counterexample: the sort of source lines 20–21 keys on the balance
value only and Python's `sorted` is stable, so two debtors with equal
balances keep their map-iteration order; re-ordering the map entries
re-orders the emitted payments. -/
theorem determinism_counterexample_c2 :
    ([("A", -50), ("B", -50), ("C", 100)] : List (String × ℚ)).Perm
        [("B", -50), ("A", -50), ("C", 100)]
    ∧ simplify_debts [("A", -50), ("B", -50), ("C", 100)]
        ≠ simplify_debts [("B", -50), ("A", -50), ("C", 100)] := by
  constructor
  · with_unfolding_all decide
  · have h1 : simplify_debts [("A", -50), ("B", -50), ("C", 100)]
        = [⟨"A", "C", 50⟩, ⟨"B", "C", 50⟩] :=
      simplify_debts_eval _ _ (by with_unfolding_all decide)
    have h2 : simplify_debts [("B", -50), ("A", -50), ("C", 100)]
        = [⟨"B", "C", 50⟩, ⟨"A", "C", 50⟩] :=
      simplify_debts_eval _ _ (by with_unfolding_all decide)
    rw [h1, h2]
    with_unfolding_all decide

/-- C2, amended: when all balance values are pairwise distinct, the
stable sort is fully determined by the values, so any re-ordering of the
balance map yields the identical ordered payment list. -/
theorem determinism_c2 (bs1 bs2 : List (String × ℚ))
    (hperm : bs1.Perm bs2) (hvals : (bs1.map Prod.snd).Nodup) :
    simplify_debts bs1 = simplify_debts bs2 := by
  have hd : sortedDebtors bs1 = sortedDebtors bs2 := by
    apply sorted_perm_eq leD (fun a b hab hba => le_antisymm hab hba)
    · exact (List.perm_insertionSort leD _).trans
        ((hperm.filter _).trans (List.perm_insertionSort leD _).symm)
    · exact List.sorted_insertionSort leD _
    · exact List.sorted_insertionSort leD _
    · exact values_nodup_sortedDebtors bs1 hvals
  have hc : sortedCreditors bs1 = sortedCreditors bs2 := by
    apply sorted_perm_eq leC (fun a b hab hba => le_antisymm hba hab)
    · exact (List.perm_insertionSort leC _).trans
        ((hperm.filter _).trans (List.perm_insertionSort leC _).symm)
    · exact List.sorted_insertionSort leC _
    · exact List.sorted_insertionSort leC _
    · exact values_nodup_sortedCreditors bs1 hvals
  unfold simplify_debts
  rw [hd, hc]

/-- Witness for the amended C2 on a concrete re-ordered map with distinct
values. -/
theorem determinism_c2_witness :
    simplify_debts [("A", 300), ("B", -100), ("C", -200)]
      = simplify_debts [("C", -200), ("A", 300), ("B", -100)] :=
  determinism_c2 _ _ (by with_unfolding_all decide) (by with_unfolding_all decide)

/-! ## Claims about the balance accumulator -/

/-- C3, counterexample: the claim says entries with non-positive amount are
rejected without changing any balance, but the source only tests
`amount == 0`; an entry with amount `-5` passes validation and does change
the balances. -/
theorem validation_counterexample_c3 :
    validEntry ⟨some (-5), ["A"], ["B"]⟩ = true
    ∧ accumulate [⟨some (-5), ["A"], ["B"]⟩] ≠ accumulate [] := by
  constructor
  · with_unfolding_all decide
  · with_unfolding_all decide

/-- C3, amended: entries with missing or zero amount, missing payer, or
empty beneficiary set are skipped silently — they change no balance, and the
remaining entries of the batch are processed exactly as if the rejected
entry were absent. -/
theorem validation_skip_c3 :
    (∀ (bs : List (String × ℚ)) (e : Entry),
      validEntry e = false → applyEntry bs e = bs)
    ∧ ∀ (bs : List (String × ℚ)) (pre post : List Entry) (e : Entry),
        validEntry e = false →
        List.foldl applyEntry bs (pre ++ e :: post)
          = List.foldl applyEntry bs (pre ++ post) := by
  refine ⟨applyEntry_invalid, ?_⟩
  intro bs pre post e h
  rw [List.foldl_append, List.foldl_append, List.foldl_cons,
    applyEntry_invalid _ _ h]

/-- Witness for the amended C3 at a concrete batch: a zero-amount entry in
the middle of a batch is skipped and the rest is processed. -/
theorem validation_skip_c3_witness :
    List.foldl applyEntry []
        ([⟨some 100, ["A"], ["B"]⟩] ++ (⟨some 0, ["X"], ["Y"]⟩ : Entry)
          :: [⟨some 50, ["B"], ["A"]⟩])
      = List.foldl applyEntry []
          ([⟨some 100, ["A"], ["B"]⟩] ++ [⟨some 50, ["B"], ["A"]⟩]) :=
  validation_skip_c3.2 [] _ _ _ (by with_unfolding_all decide)

/-- C4, counterexample: one valid entry of amount 100 split over 3
beneficiaries leaves `sum(balances.values()) = 0.01`, far above the claimed
`1e-6 ×` (number of entries) tolerance. -/
theorem zero_sum_counterexample_c4 :
    (∀ e ∈ [(⟨some 100, ["A"], ["B", "C", "D"]⟩ : Entry)], validEntry e = true)
    ∧ ¬ (|vsum (accumulate [⟨some 100, ["A"], ["B", "C", "D"]⟩])|
        ≤ (1/1000000)
          * (([(⟨some 100, ["A"], ["B", "C", "D"]⟩ : Entry)].length : ℚ))) := by
  constructor
  · with_unfolding_all decide
  · with_unfolding_all decide

/-- C4, amended: the per-beneficiary rounding to whole cents can shift the
balance sum by up to half a cent per beneficiary, so the accumulated sum is
within `0.005 ×` (total number of beneficiary shares) of 0. -/
theorem zero_sum_bound_c4 (es : List Entry)
    (h : ∀ e ∈ es, validEntry e = true) :
    |vsum (accumulate es)|
      ≤ (1/200) * ((es.map fun e => (e.sharers.length : ℚ)).sum) := by
  have h2 := abs_vsum_foldl es []
  unfold accumulate
  simpa [vsum] using h2

/-- Witness for the amended C4 at a concrete entry list. -/
theorem zero_sum_bound_c4_witness :
    |vsum (accumulate [⟨some 100, ["A"], ["B", "C", "D"]⟩])|
      ≤ (1/200) * (([(⟨some 100, ["A"], ["B", "C", "D"]⟩ : Entry)].map
          fun e => (e.sharers.length : ℚ)).sum) :=
  zero_sum_bound_c4 _ (by with_unfolding_all decide)

/-- C7: an accepted entry credits the full amount to the payer and debits
`round(amount / share_count, 2)` per beneficiary occurrence; for amount 100
split across 3 beneficiaries the per-head share is 33.33, the payer gains
exactly 100, and the 0.01 rounding discrepancy remains in the balance sum. -/
theorem round2_hundred_div_three : round2 ((100 : ℚ)/3) = 3333/100 := by
  have h1 : ((100:ℚ)/3) * 100 = 10000/3 := by norm_num
  have hfl : ⌊(10000/3 : ℚ)⌋ = 3333 := by norm_num [Int.floor_eq_iff]
  have hfr : Int.fract ((10000:ℚ)/3) = 1/3 := by
    unfold Int.fract
    rw [hfl]
    norm_num
  unfold round2 roundHalfEven
  rw [h1, hfr, if_pos (by norm_num : (1:ℚ)/3 < 1/2), hfl]
  norm_num

theorem rounding_split_c7 :
    (∀ (bs : List (String × ℚ)) (a : ℚ) (payer : String)
        (rest sharers : List String), a ≠ 0 → sharers ≠ [] → ∀ p,
      lookup0 (applyEntry bs ⟨some a, payer :: rest, sharers⟩) p
        = lookup0 bs p + (if payer = p then a else 0)
          - (sharers.count p : ℚ) * round2 (a / (sharers.length : ℚ)))
    ∧ round2 ((100 : ℚ) / 3) = 3333/100
    ∧ lookup0 (accumulate [⟨some 100, ["A"], ["B", "C", "D"]⟩]) "A" = 100
    ∧ vsum (accumulate [⟨some 100, ["A"], ["B", "C", "D"]⟩]) = 1/100 := by
  refine ⟨?_, round2_hundred_div_three, by with_unfolding_all decide,
    by with_unfolding_all decide⟩
  intro bs a payer rest sharers ha hsh p
  exact applyEntry_lookup0 bs a payer rest sharers ha hsh p

/-- Witness for C7 at a concrete beneficiary. -/
theorem rounding_split_c7_witness :
    lookup0 (applyEntry [] ⟨some 100, ["A"], ["B", "C", "D"]⟩) "B"
      = lookup0 [] "B" + (if "A" = "B" then (100 : ℚ) else 0)
        - ((["B", "C", "D"].count "B" : ℚ))
          * round2 (100 / ((["B", "C", "D"].length : ℚ))) :=
  rounding_split_c7.1 [] 100 "A" [] ["B", "C", "D"] (by norm_num) (by simp) "B"

/-- C10: when the payer list has two or more names, only the first listed
payer is credited the amount; every other identity (in particular every
other listed payer) sees at most the beneficiary debit, never a credit. -/
theorem first_payer_only_c10 :
    (∀ (bs : List (String × ℚ)) (a : ℚ) (q1 q2 : String)
        (rest sharers : List String), a ≠ 0 → sharers ≠ [] →
      lookup0 (applyEntry bs ⟨some a, q1 :: q2 :: rest, sharers⟩) q1
        = lookup0 bs q1 + a
          - (sharers.count q1 : ℚ) * round2 (a / (sharers.length : ℚ)))
    ∧ ∀ (bs : List (String × ℚ)) (a : ℚ) (q1 : String)
        (payRest sharers : List String) (q : String),
        a ≠ 0 → sharers ≠ [] → q ≠ q1 →
        lookup0 (applyEntry bs ⟨some a, q1 :: payRest, sharers⟩) q
          = lookup0 bs q
            - (sharers.count q : ℚ) * round2 (a / (sharers.length : ℚ)) := by
  constructor
  · intro bs a q1 q2 rest sharers ha hsh
    rw [applyEntry_lookup0 bs a q1 (q2 :: rest) sharers ha hsh q1, if_pos rfl]
  · intro bs a q1 payRest sharers q ha hsh hq
    rw [applyEntry_lookup0 bs a q1 payRest sharers ha hsh q,
      if_neg (fun hh => hq hh.symm)]
    ring

/-- Witness for C10: the second listed payer of a two-payer entry gets no
credit. -/
theorem first_payer_only_c10_witness :
    lookup0 (applyEntry [] ⟨some 100, ["A", "X"], ["B"]⟩) "X"
      = lookup0 [] "X"
        - ((["B"].count "X" : ℚ)) * round2 (100 / ((["B"].length : ℚ))) :=
  first_payer_only_c10.2 [] 100 "A" ["X"] ["B"] "X" (by norm_num) (by simp)
    (by decide)

/-- C9: when no entry survives validation (in particular on the empty
list) the computation ends in the distinct no-data error without invoking
the simplifier, while valid but already-settled data yields the success
result with an empty payment list. -/
theorem empty_result_c9 :
    (∀ es : List Entry, (∀ e ∈ es, validEntry e = false)
      → mainCompute es = ComputeResult.noData)
    ∧ mainCompute [] = ComputeResult.noData
    ∧ mainCompute [⟨some 100, ["A"], ["A"]⟩] = ComputeResult.done [] := by
  refine ⟨?_, rfl, ?_⟩
  · intro es h
    unfold mainCompute
    rw [accumulate_all_invalid es h]
    rfl
  · have hacc : accumulate [⟨some 100, ["A"], ["A"]⟩] = [("A", 0)] := by
      with_unfolding_all decide
    show (if accumulate [⟨some 100, ["A"], ["A"]⟩] = [] then ComputeResult.noData
      else ComputeResult.done (simplify_debts (accumulate [⟨some 100, ["A"], ["A"]⟩])))
      = ComputeResult.done []
    rw [hacc, if_neg (by simp)]
    have hsd : sortedDebtors [("A", 0)] = [] := by with_unfolding_all decide
    have hsc : sortedCreditors [("A", 0)] = [] := by with_unfolding_all decide
    unfold simplify_debts
    rw [hsd, hsc, simplifyGo_stop _ _ _ _ (by simp)]

/-- Witness for C9 on a batch whose single entry fails validation. -/
theorem empty_result_c9_witness :
    mainCompute [⟨some 0, ["A"], ["B"]⟩] = ComputeResult.noData :=
  empty_result_c9.1 _ (by with_unfolding_all decide)

end Warikan
